import Mathlib

/-!
Verification of the AGNI (Adaptive Gradient Noise Injection) repository.

Shallow embedding of the core numeric components, translated from the
Python source:

* `compute_variance_online` (src/source/agni_effective_step_sizes.py,
  lines 17-35): a streaming Welford mean/variance estimator over
  per-parameter gradient tensors.  Tensors are embedded as functions
  `ι → ℚ` (numpy elementwise arithmetic becomes pointwise rational
  arithmetic; exact rationals stand in for floats).
* the noise-injection block of `run_experiment` (lines 63-79), embedded
  over a value domain `NVal` that tracks IEEE-style NaN propagation,
  since `torch.sqrt` of a negative number silently yields NaN.
* the accumulation / stepping loop of `run_experiment` (lines 45-91, with
  `use_noise_injection = False`) and the effective-step-size recording
  (lines 81-90).
* the optimizer-step boundary condition of `main` in
  src/source/run_glue_baselines2.py (line 895).
* `compute_with_retry` (run_glue_baselines2.py, lines 482-494).
* the ensemble combiners `EnsembleModel`, `WeightedSum`, and
  `AdaBoostCombiner` (run_glue_baselines2.py); real-valued logits use `ℝ`
  with `Real.exp` / `Real.log` as the exact semantics of torch's exp/log.
-/

/-! ## VarianceTracker: streaming Welford estimator

Embedding of `compute_variance_online`.  The Python code lazily allocates
`mean`/`M2` as zero arrays on the first sample; starting from an
all-zero state is equivalent, since the first update sends the mean to
the first sample regardless of its prior value times zero count. -/

structure VarState (ι : Type) where
  n : ℕ
  mean : ι → ℚ
  M2 : ι → ℚ

def varInit (ι : Type) : VarState ι :=
  ⟨0, fun _ => 0, fun _ => 0⟩

/-- One iteration of the loop body of `compute_variance_online`:
`n += 1; delta = grad - mean; mean += delta / n; delta2 = grad - mean;
M2 += delta * delta2`, all elementwise. -/
def varUpdate {ι : Type} (s : VarState ι) (x : ι → ℚ) : VarState ι :=
  let n : ℕ := s.n + 1
  let delta : ι → ℚ := fun i => x i - s.mean i
  let mean : ι → ℚ := fun i => s.mean i + delta i / (n : ℚ)
  let delta2 : ι → ℚ := fun i => x i - mean i
  ⟨n, mean, fun i => s.M2 i + delta i * delta2 i⟩

/-- Folding a whole list of gradient samples through the update,
as the `for grad in gradients` loop does. -/
def varFold {ι : Type} (xs : List (ι → ℚ)) : VarState ι :=
  xs.foldl varUpdate (varInit ι)

/-- The final line of `compute_variance_online`:
`variance = M2 / (n - 1) if n > 1 else M2`. -/
def varFinalize {ι : Type} (s : VarState ι) : ι → ℚ :=
  if 1 < s.n then fun i => s.M2 i / ((s.n - 1 : ℕ) : ℚ) else s.M2

/-- Entrywise sum of the samples (a proof-side abbreviation). -/
def entrySum {ι : Type} (xs : List (ι → ℚ)) (i : ι) : ℚ :=
  (xs.map fun x => x i).sum

/-- Entrywise sum of squares of the samples (a proof-side abbreviation). -/
def entrySumSq {ι : Type} (xs : List (ι → ℚ)) (i : ι) : ℚ :=
  (xs.map fun x => (x i) ^ 2).sum

/-- Entrywise two-pass sample mean, following the claim's words. -/
def twoPassMean {ι : Type} (xs : List (ι → ℚ)) (i : ι) : ℚ :=
  entrySum xs i / (xs.length : ℚ)

/-- Entrywise two-pass sample variance `Σ (x_i - xbar)^2 / (n - 1)`,
following the claim's words. -/
def twoPassVariance {ι : Type} (xs : List (ι → ℚ)) : ι → ℚ :=
  fun i => (xs.map fun x => (x i - twoPassMean xs i) ^ 2).sum / ((xs.length - 1 : ℕ) : ℚ)

theorem entrySum_append {ι : Type} (xs : List (ι → ℚ)) (x : ι → ℚ) (i : ι) :
    entrySum (xs ++ [x]) i = entrySum xs i + x i := by
  simp [entrySum]

theorem entrySumSq_append {ι : Type} (xs : List (ι → ℚ)) (x : ι → ℚ) (i : ι) :
    entrySumSq (xs ++ [x]) i = entrySumSq xs i + (x i) ^ 2 := by
  simp [entrySumSq]

theorem varFold_append {ι : Type} (xs : List (ι → ℚ)) (x : ι → ℚ) :
    varFold (xs ++ [x]) = varUpdate (varFold xs) x := by
  simp [varFold, List.foldl_append]

/-- Closed form of the folded Welford state: `n` is the sample count,
`mean` is the running average, and `M2 = Σ x² - (Σ x)² / n` entrywise.
With rational division-by-zero equal to zero, the formulas also hold for
the empty list. -/
theorem varFold_closed_form {ι : Type} (xs : List (ι → ℚ)) (i : ι) :
    (varFold xs).n = xs.length ∧
    (varFold xs).mean i = entrySum xs i / (xs.length : ℚ) ∧
    (varFold xs).M2 i = entrySumSq xs i - (entrySum xs i) ^ 2 / (xs.length : ℚ) := by
  induction xs using List.reverseRecOn with
  | nil =>
    refine ⟨rfl, ?_, ?_⟩ <;> simp [varFold, varInit, entrySum, entrySumSq]
  | append_singleton xs x ih =>
    obtain ⟨hn, hmean, hM2⟩ := ih
    rw [varFold_append]
    rcases Nat.eq_zero_or_pos xs.length with h0 | hpos
    · rcases List.length_eq_zero.mp h0 with rfl
      refine ⟨rfl, ?_, ?_⟩
      · simp [varFold, varInit, varUpdate, entrySum]
      · simp [varFold, varInit, varUpdate, entrySum, entrySumSq]
    · have hL : ((xs.length : ℚ)) ≠ 0 := by
        exact_mod_cast Nat.pos_iff_ne_zero.mp hpos
      have hL1 : ((xs.length : ℚ) + 1) ≠ 0 := by positivity
      refine ⟨by simp [varUpdate, hn], ?_, ?_⟩
      · simp only [varUpdate, hn, hmean, entrySum_append]
        push_cast
        field_simp
        ring
      · simp only [varUpdate, hn, hmean, hM2, entrySum_append, entrySumSq_append]
        push_cast
        field_simp
        ring

theorem sum_sq_dev {ι : Type} (xs : List (ι → ℚ)) (i : ι) (m : ℚ) :
    (xs.map fun x => (x i - m) ^ 2).sum
      = entrySumSq xs i - 2 * m * entrySum xs i + (xs.length : ℚ) * m ^ 2 := by
  induction xs with
  | nil => simp [entrySum, entrySumSq]
  | cons y ys ih =>
    simp only [List.map_cons, List.sum_cons, ih, entrySum, entrySumSq,
      List.length_cons]
    push_cast
    ring

/-- Claim C1: for every non-empty list of gradient samples, folding
through the Welford update of `compute_variance_online` and finalizing
yields, entrywise, the two-pass sample variance `Σ (x - xbar)² / (n-1)`
when `n > 1`, and the zero tensor when `n = 1` (exact arithmetic). -/
theorem varianceTracker_matches_two_pass {ι : Type} (xs : List (ι → ℚ))
    (hne : xs ≠ []) :
    (1 < xs.length → varFinalize (varFold xs) = twoPassVariance xs) ∧
    (xs.length = 1 → varFinalize (varFold xs) = fun _ => 0) := by
  constructor
  · intro hlen
    funext i
    obtain ⟨hn, _, hM2⟩ := varFold_closed_form xs i
    have hL : ((xs.length : ℚ)) ≠ 0 := by
      have : xs.length ≠ 0 := by omega
      exact_mod_cast this
    have hfin : varFinalize (varFold xs)
        = fun i => (varFold xs).M2 i / (((varFold xs).n - 1 : ℕ) : ℚ) := by
      unfold varFinalize
      rw [if_pos (by omega)]
    rw [hfin]
    simp only [hn, hM2]
    have h1le : 1 ≤ xs.length := by omega
    unfold twoPassVariance
    rw [sum_sq_dev xs i (twoPassMean xs i)]
    unfold twoPassMean
    simp only [Nat.cast_sub h1le, Nat.cast_one]
    have hL1 : ((xs.length : ℚ) - 1) ≠ 0 := by
      have h2 : (2 : ℚ) ≤ (xs.length : ℚ) := by exact_mod_cast hlen
      linarith
    field_simp
    ring
  · intro hlen
    obtain ⟨x, rfl⟩ := List.length_eq_one.mp hlen
    funext i
    obtain ⟨hn, _, hM2⟩ := varFold_closed_form [x] i
    have hfin : varFinalize (varFold [x]) = (varFold [x]).M2 := by
      unfold varFinalize
      rw [if_neg (by omega)]
    rw [hfin, hM2]
    simp [entrySum, entrySumSq]

/-- Witness for C1 at the concrete sample list `[1, 2, 3]` (entrywise,
index type `Fin 1`): the streaming variance equals the two-pass variance. -/
def wC1xs : List (Fin 1 → ℚ) := [fun _ => 1, fun _ => 2, fun _ => 3]

theorem varianceTracker_matches_two_pass_witness :
    varFinalize (varFold wC1xs) = twoPassVariance wC1xs :=
  (varianceTracker_matches_two_pass wC1xs (by simp [wC1xs])).1 (by simp [wC1xs])

/-- The single-step Welford increment in closed form:
`delta * delta2 = (x - mean)² · n / (n + 1)` entrywise. -/
theorem varUpdate_increment {ι : Type} (s : VarState ι) (x : ι → ℚ) (i : ι) :
    (varUpdate s x).M2 i - s.M2 i
      = (x i - s.mean i) ^ 2 * (s.n : ℚ) / ((s.n : ℚ) + 1) := by
  have h1 : ((s.n : ℚ) + 1) ≠ 0 := by positivity
  simp only [varUpdate]
  push_cast
  field_simp
  ring

/-- Claim C8: every state reachable from the empty state by `varUpdate`
has `n` equal to the (non-negative) number of samples folded in and an
entrywise non-negative `M2`; the per-update increment
`delta ⊙ delta2 = (x - mean)² · n/(n+1)` is entrywise non-negative for
every state, which is what preserves the invariant.  (The mean/M2 shape
invariant holds by construction: both live at the samples' index type
`ι`.) -/
theorem varState_invariant {ι : Type} (xs : List (ι → ℚ)) (i : ι) :
    (varFold xs).n = xs.length ∧
    0 ≤ (varFold xs).M2 i ∧
    ∀ (s : VarState ι) (x : ι → ℚ), s.M2 i ≤ (varUpdate s x).M2 i := by
  have hinc : ∀ (s : VarState ι) (x : ι → ℚ), s.M2 i ≤ (varUpdate s x).M2 i := by
    intro s x
    have h := varUpdate_increment s x i
    have hnn : 0 ≤ (x i - s.mean i) ^ 2 * (s.n : ℚ) / ((s.n : ℚ) + 1) := by
      positivity
    linarith
  refine ⟨(varFold_closed_form xs i).1, ?_, hinc⟩
  induction xs using List.reverseRecOn with
  | nil => simp [varFold, varInit]
  | append_singleton ys y ih =>
    rw [varFold_append]
    exact le_trans ih (hinc (varFold ys) y)

/-! ## NoiseInjector

Embedding of the injection block of `run_experiment` (lines 72-79):
`noise_scale = torch.sqrt(eta * gradient_variance) * grad_magnitude;
noise = torch.randn_like(p.grad) * noise_scale; p.grad += noise`.

Torch float semantics on the square root of a negative number produce a
NaN silently and raise nothing, so the embedding carries values in a
domain `NVal` with an explicit NaN that propagates through `+`, `*`, and
square root; `nSqrt` uses `Rat.sqrt` as the (finite-precision) value on
non-negative inputs.  The random draw `torch.randn_like` is passed in as
an explicit `randn` argument. -/

inductive NVal where
  | nan : NVal
  | val : ℚ → NVal
deriving DecidableEq

def nAdd : NVal → NVal → NVal
  | NVal.val a, NVal.val b => NVal.val (a + b)
  | _, _ => NVal.nan

def nMul : NVal → NVal → NVal
  | NVal.val a, NVal.val b => NVal.val (a * b)
  | _, _ => NVal.nan

def nSqrt : NVal → NVal
  | NVal.nan => NVal.nan
  | NVal.val x => if x < 0 then NVal.nan else NVal.val (Rat.sqrt x)

/-- Embedding of lines 75-79 of agni_effective_step_sizes.py, entrywise
over the gradient's index type.  The function is total: there is no
error path, matching the torch code, which raises nothing here. -/
def injectNoise {ι : Type} (grad variance : ι → NVal) (magnitude : NVal)
    (eta : ℚ) (randn : ι → ℚ) : ι → NVal :=
  fun i =>
    let noiseScale := nMul (nSqrt (nMul (NVal.val eta) (variance i))) magnitude
    let noise := nMul (NVal.val (randn i)) noiseScale
    nAdd (grad i) noise

theorem ratSqrt_zero : Rat.sqrt 0 = 0 := by decide

/-- Claim C3 (code_bug evidence): at a variance tensor with a negative
entry and `eta = 0.01` (the default), the injection returns normally —
no error is raised anywhere on this path — and the returned gradient is
NaN at every entry, the NaN having been produced silently by
`torch.sqrt` of a negative number.  The claim instead requires the
training step to fail immediately with a numeric-domain error. -/
theorem injectNoise_negative_variance_silent_nan :
    injectNoise (ι := Fin 1) (fun _ => NVal.val 0) (fun _ => NVal.val (-1))
        (NVal.val 1) (1 / 100) (fun _ => 1)
      = fun _ => NVal.nan := by
  funext i
  simp only [injectNoise, nMul, nSqrt, nAdd]
  norm_num

/-- Claim C4: with `eta = 0`, noise injection is the identity on the
gradient, for every gradient, every entrywise non-negative variance,
every magnitude, and every random draw. -/
theorem injectNoise_eta_zero_identity {ι : Type} (grad variance : ι → ℚ)
    (magnitude : ℚ) (randn : ι → ℚ) (hvar : ∀ i, 0 ≤ variance i) :
    injectNoise (fun i => NVal.val (grad i)) (fun i => NVal.val (variance i))
        (NVal.val magnitude) 0 randn
      = fun i => NVal.val (grad i) := by
  funext i
  simp only [injectNoise, nMul, nSqrt, nAdd, zero_mul]
  norm_num [ratSqrt_zero]

/-- Witness for C4 at a concrete input: gradient `[3]`, variance `[2]`,
magnitude `5`, random draw `[7]`. -/
theorem injectNoise_eta_zero_identity_witness :
    injectNoise (ι := Fin 1) (fun _ => NVal.val 3) (fun _ => NVal.val 2)
        (NVal.val 5) 0 (fun _ => 7)
      = fun _ => NVal.val 3 :=
  injectNoise_eta_zero_identity (fun _ => 3) (fun _ => 2) 5 (fun _ => 7)
    (fun _ => by norm_num)

/-! ## Training loop of `run_experiment` (noise injection disabled)

Embedding of the epoch loop of `run_experiment`
(agni_effective_step_sizes.py, lines 45-91) in the
`use_noise_injection = False` configuration, where the injection branch
(lines 64-79) is skipped entirely.  Flattened gradient tensors
(`p.grad.view(-1)`) are `List ℚ`; a parameter's gradient is
`Option (List ℚ)` with `none` for Python's `None`.  `optimizer.step()`
only mutates the parameters themselves and is not part of this state;
`optimizer.zero_grad()` is modelled as resetting gradients to `none`.
The per-micro-batch gradient contributions produced by `loss.backward()`
are an explicit input `gIn`, and autograd accumulates them into
`p.grad`. -/

def listAdd (v w : List ℚ) : List ℚ := List.zipWith (· + ·) v w

def accumGrad : Option (List ℚ) → Option (List ℚ) → Option (List ℚ)
  | none, g => g
  | some v, none => some v
  | some v, some w => some (listAdd v w)

def listNormSq (v : List ℚ) : ℚ := (v.map fun x => x * x).sum

/-- Euclidean norm of a flattened gradient; `Rat.sqrt` stands in for the
finite-precision square root of `torch.norm`. -/
def listNorm (v : List ℚ) : ℚ := Rat.sqrt (listNormSq v)

structure AgniState (P : ℕ) where
  grad : Fin P → Option (List ℚ)
  buffers : Fin P → List (List ℚ)
  stepSizes : List ℚ

def agniInit (P : ℕ) : AgniState P :=
  ⟨fun _ => none, fun _ => [], []⟩

/-- Lines 82-85: `effective_step = 0`, then for each parameter with a
non-null gradient, `effective_step += (lr * p.grad.norm()).item()`. -/
def effectiveStepFold {P : ℕ} (lr : ℚ) (grads : Fin P → Option (List ℚ)) : ℚ :=
  (List.finRange P).foldl
    (fun acc p =>
      match grads p with
      | none => acc
      | some v => acc + lr * listNorm v)
    0

/-- Line 86: append the effective step size to the record.  Nothing else
in the state is touched. -/
def recordPhase {P : ℕ} (lr : ℚ) (s : AgniState P) : AgniState P :=
  { s with stepSizes := s.stepSizes ++ [effectiveStepFold lr s.grad] }

/-- Line 90: `optimizer.zero_grad()`. -/
def zeroGradPhase {P : ℕ} (s : AgniState P) : AgniState P :=
  { s with grad := fun _ => none }

/-- One iteration of the epoch loop (lines 45-91) with
`use_noise_injection = False`: backward accumulates the micro-batch
gradient into `p.grad`; lines 59-61 append the accumulated gradient to
`gradient_dict[p]` whenever `p.grad` is non-null; and at an accumulation
boundary (`(epoch + 1) % gradient_accumulation_steps == 0`, line 63) the
effective step size is recorded and gradients are zeroed. -/
def agniEpochNoInj {P : ℕ} (accSteps : ℕ) (lr : ℚ)
    (gIn : Fin P → Option (List ℚ)) (t : ℕ) (s : AgniState P) : AgniState P :=
  let grad1 : Fin P → Option (List ℚ) := fun p => accumGrad (s.grad p) (gIn p)
  let s2 : AgniState P :=
    { grad := grad1
      buffers := fun p =>
        match grad1 p with
        | none => s.buffers p
        | some v => s.buffers p ++ [v]
      stepSizes := s.stepSizes }
  if (t + 1) % accSteps == 0 then zeroGradPhase (recordPhase lr s2) else s2

/-- The whole run: `for epoch in range(num_epochs)` (line 45). -/
def agniRunNoInj {P : ℕ} (accSteps : ℕ) (lr : ℚ)
    (gIn : ℕ → Fin P → Option (List ℚ)) (numEpochs : ℕ) : AgniState P :=
  (List.range numEpochs).foldl
    (fun s t => agniEpochNoInj accSteps lr (gIn t) t s) (agniInit P)

/-! ## Optimizer-step boundary of `main` in run_glue_baselines2.py

Line 895: `if step % args.gradient_accumulation_steps == 0 or
step == len(train_dataloader) - 1:` guards the optimizer step, scheduler
step, and gradient zeroing.  `glueStepsAt acc n` is the list of
micro-batch indices (of an epoch with `n` batches) at which an optimizer
step fires. -/

def glueStepsAt (acc n : ℕ) : List ℕ :=
  (List.range n).filter fun step => step % acc == 0 || step == n - 1

/-- Modelled from the claim's words (not from the source): an optimizer
step fires exactly when the number of micro-batches accumulated since
the previous optimizer step equals `acc`, or at the final batch. -/
def claimStepsAux (acc n : ℕ) : ℕ → ℕ → ℕ → List ℕ
  | 0, _, _ => []
  | rem + 1, step, c =>
    if c + 1 = acc ∨ step = n - 1 then
      step :: claimStepsAux acc n rem (step + 1) 0
    else
      claimStepsAux acc n rem (step + 1) (c + 1)

def claimSteps (acc n : ℕ) : List ℕ := claimStepsAux acc n n 0 0

/-- Claim C2 counterexample: with `gradient_accumulation_steps = 4` and
an epoch of 8 micro-batches, the code fires optimizer steps at
micro-batch indices `[0, 4, 7]` (the first after only one accumulated
micro-batch, since `step % 4 == 0` already holds at `step = 0`), while
the claim's accumulated-count rule predicts `[3, 7]`. -/
theorem glue_step_boundary_counterexample :
    glueStepsAt 4 8 ≠ claimSteps 4 8 := by decide

/-- Claim C2 (amended): in run_glue_baselines2.py an optimizer step
fires exactly at micro-batch indices that are multiples of
`gradient_accumulation_steps`, plus the final batch of the epoch; in
`run_experiment` of agni_effective_step_sizes.py a step fires exactly
when `(epoch + 1)` is a multiple of `gradient_accumulation_steps` (no
final-batch trigger), so with `accumulation_steps = 4`, 4 consecutive
micro-batches, and noise injection disabled, exactly one optimizer step
is triggered and the effective-step-size record gains exactly one
entry. -/
theorem step_boundaries_amended :
    (∀ acc n s, s ∈ glueStepsAt acc n ↔ s < n ∧ (s % acc = 0 ∨ s = n - 1)) ∧
    (∀ (P : ℕ) (lr : ℚ) (gIn : ℕ → Fin P → Option (List ℚ)),
      (agniRunNoInj 4 lr gIn 4).stepSizes.length = 1) := by
  constructor
  · intro acc n s
    simp [glueStepsAt, List.mem_filter, List.mem_range, and_comm]
  · intro P lr gIn
    show (agniEpochNoInj 4 lr (gIn 3) 3
      (agniEpochNoInj 4 lr (gIn 2) 2
        (agniEpochNoInj 4 lr (gIn 1) 1
          (agniEpochNoInj 4 lr (gIn 0) 0 (agniInit P))))).stepSizes.length = 1
    simp [agniEpochNoInj, recordPhase, zeroGradPhase, agniInit]

theorem effectiveStepFold_go {P : ℕ} (lr : ℚ) (grads : Fin P → Option (List ℚ)) :
    ∀ (l : List (Fin P)) (a : ℚ),
      l.foldl
        (fun acc p =>
          match grads p with
          | none => acc
          | some v => acc + lr * listNorm v)
        a
      = a + (l.map fun p => match grads p with
          | none => 0
          | some v => lr * listNorm v).sum := by
  intro l
  induction l with
  | nil => intro a; simp
  | cons p l ih =>
    intro a
    rcases hp : grads p with _ | v <;>
      simp [List.foldl_cons, ih, hp] <;> ring

/-- Claim C7: the effective-step computation (lines 82-86) returns the
sum, over exactly the parameters with non-null gradients, of
`lr · ‖grad_p‖₂`; the record phase appends exactly that one scalar to
the append-only step-size record and mutates neither the gradients nor
the snapshot buffers. -/
theorem record_effective_step {P : ℕ} (lr : ℚ) (s : AgniState P) :
    effectiveStepFold lr s.grad
      = ∑ p ∈ Finset.univ.filter (fun p => (s.grad p).isSome),
          lr * listNorm ((s.grad p).getD []) ∧
    (recordPhase lr s).stepSizes = s.stepSizes ++ [effectiveStepFold lr s.grad] ∧
    (recordPhase lr s).stepSizes.length = s.stepSizes.length + 1 ∧
    (recordPhase lr s).grad = s.grad ∧
    (recordPhase lr s).buffers = s.buffers := by
  refine ⟨?_, rfl, by simp [recordPhase], rfl, rfl⟩
  have hfg : (fun p : Fin P =>
        match s.grad p with
        | none => (0 : ℚ)
        | some v => lr * listNorm v)
      = fun p => if (s.grad p).isSome then lr * listNorm ((s.grad p).getD []) else 0 := by
    funext p
    rcases hp : s.grad p with _ | v <;> simp [hp]
  rw [effectiveStepFold, effectiveStepFold_go, zero_add, Finset.sum_filter,
    Fin.sum_univ_def, hfg]

/-- Claim C10: with noise injection disabled the snapshot buffers are
never cleared — after `k` micro-batches in which every parameter
received a gradient, every parameter's buffer holds exactly `k` entries,
across every optimizer-step boundary. -/
theorem buffers_grow_without_injection {P : ℕ} (acc : ℕ) (lr : ℚ)
    (gIn : ℕ → Fin P → Option (List ℚ)) (k : ℕ)
    (hg : ∀ t p, gIn t p ≠ none) (p : Fin P) :
    ((agniRunNoInj acc lr gIn k).buffers p).length = k := by
  induction k with
  | zero => simp [agniRunNoInj, agniInit]
  | succ k ih =>
    have hrun : agniRunNoInj acc lr gIn (k + 1)
        = agniEpochNoInj acc lr (gIn k) k (agniRunNoInj acc lr gIn k) := by
      simp [agniRunNoInj, List.range_succ]
    rw [hrun]
    set s := agniRunNoInj acc lr gIn k with hs
    obtain ⟨w, hw⟩ : ∃ w, gIn k p = some w :=
      Option.ne_none_iff_exists'.mp (hg k p)
    have hsome : ∃ u, accumGrad (s.grad p) (gIn k p) = some u := by
      rcases hgp : s.grad p with _ | v
      · exact ⟨w, by rw [hw]; rfl⟩
      · exact ⟨listAdd v w, by rw [hw]; rfl⟩
    obtain ⟨u, hu⟩ := hsome
    have hbuf : (agniEpochNoInj acc lr (gIn k) k s).buffers p
        = s.buffers p ++ [u] := by
      unfold agniEpochNoInj
      split
      · simp only [zeroGradPhase, recordPhase, hu]
      · simp only [hu]
    rw [hbuf]
    simp [ih]

/-- Witness for C10 at a concrete run: one parameter, gradient `[1, 2]`
at every micro-batch, `accumulation_steps = 4`, 6 micro-batches: the
buffer ends with 6 entries even though an optimizer step fired at
micro-batch 3. -/
def wC10gIn : ℕ → Fin 1 → Option (List ℚ) := fun _ _ => some [1, 2]

theorem buffers_grow_without_injection_witness :
    ((agniRunNoInj 4 1 wC10gIn 6).buffers 0).length = 6 :=
  buffers_grow_without_injection 4 1 wC10gIn 6
    (fun t p => by simp [wC10gIn]) 0

/-! ## compute_with_retry (run_glue_baselines2.py, lines 482-494)

The Python loop runs `metric.compute()` up to `max_retries` times.  A
`ValueError` whose message contains `"Please specify an experiment_id"`
enters the transient branch, which computes
`wait_time = initial_wait * (2 ** attempt) + random.uniform(0, 1)`,
prints, and then calls `time.sleep(wait_time)`.  The module, however,
never imports `time` (its imports are at lines 16-52, 232-233 and 496),
so `time.sleep` raises `NameError` inside the `except` handler; nothing
catches it, so it propagates out of `compute_with_retry` and the loop
never reaches a second attempt.  Any other `ValueError` is re-raised,
any other exception class is not caught at all, and the generic
post-loop `Exception` is reachable only when `max_retries = 0`.

The outcome of each attempt is an explicit input
`compute : ℕ → PyOutcome α`; raising is modelled by returning the error
outcome. -/

inductive PyOutcome (α : Type) where
  | ok : α → PyOutcome α
  | valueError : String → PyOutcome α
  | otherError : String → PyOutcome α
deriving DecidableEq

def transientNeedle : String := "Please specify an experiment_id"

def chListStarts : List Char → List Char → Bool
  | [], _ => true
  | _ :: _, [] => false
  | n :: ns, h :: hs => n == h && chListStarts ns hs

def chListContains : List Char → List Char → Bool
  | ns, [] => chListStarts ns []
  | ns, h :: hs => chListStarts ns (h :: hs) || chListContains ns hs

/-- Python's `needle in str(e)` substring test, on character lists. -/
def containsNeedle (msg : String) : Bool :=
  chListContains transientNeedle.data msg.data

def exhaustedMsg : String := "Failed to compute metric after max retries"

/-- The uncaught exception the transient branch actually raises:
`time.sleep` at line 490 references the never-imported module `time`. -/
def nameErrorMsg : String := "NameError: name time is not defined"

/-- The `for attempt in range(max_retries)` loop of `compute_with_retry`
with the semantics the source really has: on `ok` return the result; on
a `ValueError` containing the transient marker, enter the handler, whose
`time.sleep(wait_time)` call raises an uncaught `NameError` (the module
never imports `time`), aborting the whole call before any re-attempt; on
any other `ValueError` re-raise it; any other exception class is never
caught.  The `rem = 0` case is the post-loop `raise Exception(...)`. -/
def retryFrom {α : Type} (compute : ℕ → PyOutcome α) : ℕ → ℕ → PyOutcome α
  | _, 0 => PyOutcome.otherError exhaustedMsg
  | attempt, _ + 1 =>
    match compute attempt with
    | PyOutcome.ok r => PyOutcome.ok r
    | PyOutcome.valueError msg =>
      if containsNeedle msg then PyOutcome.otherError nameErrorMsg
      else PyOutcome.valueError msg
    | PyOutcome.otherError e => PyOutcome.otherError e

def computeWithRetry {α : Type} (compute : ℕ → PyOutcome α)
    (maxRetries : ℕ) : PyOutcome α :=
  retryFrom compute 0 maxRetries

/-- Concrete failing scenario for C6: the first attempt fails with the
transient `ValueError`, and a second attempt would succeed. -/
def wC6msg : String := "Please specify an experiment_id string"

def wC6compute : ℕ → PyOutcome ℕ := fun t =>
  if t = 0 then PyOutcome.valueError wC6msg else PyOutcome.ok 7

/-- Claim C6 (code_bug evidence): run_glue_baselines2.py never imports
`time`, so the transient branch of `compute_with_retry` raises an
uncaught `NameError` from `time.sleep` on the very first transient
`ValueError` — with the default 10 attempts, a first attempt that fails
transiently (its message containing the marker) and a second attempt
that would succeed, the call aborts with the `NameError` instead of
sleeping with exponential backoff and retrying as the claim describes. -/
theorem compute_with_retry_never_retries :
    computeWithRetry wC6compute 10 = PyOutcome.otherError nameErrorMsg ∧
    wC6compute 0 = PyOutcome.valueError wC6msg ∧
    containsNeedle wC6msg = true ∧
    wC6compute 1 = PyOutcome.ok 7 := by
  refine ⟨by decide, rfl, by decide, rfl⟩

/-! ## Ensemble combiners (run_glue_baselines2.py)

Logit tensors are `Fin B → Fin L → ℝ` (batch index, label index), with
`Real.exp` / `Real.log` as the exact semantics of torch's exp/log. -/

/-- The `WeightedSum` module (lines 423-429): learnable weights,
set at construction to `torch.tensor([0.5, 0.5])`, and
`forward = logits1 * weights[0] + logits2 * weights[1]`. -/
noncomputable def weightedSumInitW : Fin 2 → ℝ := ![1 / 2, 1 / 2]

noncomputable def weightedSumCombine {B L : ℕ} (w : Fin 2 → ℝ)
    (logits1 logits2 : Fin B → Fin L → ℝ) : Fin B → Fin L → ℝ :=
  fun b j => logits1 b j * w 0 + logits2 b j * w 1

/-- Cross-entropy with mean reduction for integer labels, the exact
semantics of `CrossEntropyLoss()(logits.view(-1, L), labels.view(-1))`
used by `EnsembleModel.forward` for single-label classification:
mean over the batch of `log Σ_j exp(z_j) − z_label`. -/
noncomputable def crossEntropyLoss {B L : ℕ} (logits : Fin B → Fin L → ℝ)
    (labels : Fin B → Fin L) : ℝ :=
  (∑ b, (Real.log (∑ j, Real.exp (logits b j)) - logits b (labels b))) / B

/-- The fixed label vector `[0, 1, 0, 1]` of the scenario. -/
def c5Labels : Fin 4 → Fin 2 := ![0, 1, 0, 1]

/-- Claim C5: for a 2-member ensemble with `num_labels = 2`, one batch
of 4 examples with labels `[0, 1, 0, 1]` and arbitrary per-member
logits, the weighted-sum combination with weights `0.5 / 0.5` is exactly
the arithmetic mean of the two logit tensors, and therefore its
cross-entropy loss equals the cross-entropy loss of the mean logits. -/
theorem weightedSum_equal_weights_loss (l1 l2 : Fin 4 → Fin 2 → ℝ) :
    weightedSumCombine weightedSumInitW l1 l2
      = (fun b j => (l1 b j + l2 b j) / 2) ∧
    crossEntropyLoss (weightedSumCombine weightedSumInitW l1 l2) c5Labels
      = crossEntropyLoss (fun b j => (l1 b j + l2 b j) / 2) c5Labels := by
  have hcomb : weightedSumCombine weightedSumInitW l1 l2
      = fun b j => (l1 b j + l2 b j) / 2 := by
    funext b j
    show l1 b j * weightedSumInitW 0 + l2 b j * weightedSumInitW 1 = _
    norm_num [weightedSumInitW]
    ring
  exact ⟨hcomb, by rw [hcomb]⟩

/-- The `AdaBoostCombiner` module (lines 464-472):
`weights = torch.exp(self.alpha)`;
`combined = logits1 * weights[0] + logits2 * weights[1]`;
`return combined / weights.sum()`. -/
noncomputable def adaBoostCombine {B L : ℕ} (alpha : Fin 2 → ℝ)
    (logits1 logits2 : Fin B → Fin L → ℝ) : Fin B → Fin L → ℝ :=
  fun b j =>
    (logits1 b j * Real.exp (alpha 0) + logits2 b j * Real.exp (alpha 1))
      / (Real.exp (alpha 0) + Real.exp (alpha 1))

/-- The effective mixing weights named by the claim:
`exp(alpha_i) / Σ_j exp(alpha_j)`. -/
noncomputable def adaBoostMix (alpha : Fin 2 → ℝ) : Fin 2 → ℝ :=
  fun i => Real.exp (alpha i) / (∑ j, Real.exp (alpha j))

/-- Claim C9: for every real `alpha` and all member logits, the AdaBoost
mixing weights lie strictly in `(0, 1)` and sum to `1`, and the combined
output is exactly the corresponding weighted average of the member
logits. -/
theorem adaBoost_mixing_weights {B L : ℕ} (alpha : Fin 2 → ℝ)
    (l1 l2 : Fin B → Fin L → ℝ) :
    (∀ i, 0 < adaBoostMix alpha i ∧ adaBoostMix alpha i < 1) ∧
    (∑ i, adaBoostMix alpha i) = 1 ∧
    adaBoostCombine alpha l1 l2
      = fun b j => adaBoostMix alpha 0 * l1 b j + adaBoostMix alpha 1 * l2 b j := by
  have hsum : (∑ j, Real.exp (alpha j))
      = Real.exp (alpha 0) + Real.exp (alpha 1) := by
    rw [Fin.sum_univ_two]
  have hpos : (0 : ℝ) < Real.exp (alpha 0) + Real.exp (alpha 1) := by
    positivity
  have hne : Real.exp (alpha 0) + Real.exp (alpha 1) ≠ 0 := ne_of_gt hpos
  refine ⟨?_, ?_, ?_⟩
  · intro i
    constructor
    · unfold adaBoostMix
      rw [hsum]
      positivity
    · unfold adaBoostMix
      rw [hsum, div_lt_one hpos]
      fin_cases i
      · simpa using Real.exp_pos (alpha 1)
      · simpa using Real.exp_pos (alpha 0)
  · rw [Fin.sum_univ_two]
    unfold adaBoostMix
    rw [hsum, div_add_div_same, div_self hne]
  · funext b j
    unfold adaBoostCombine adaBoostMix
    rw [hsum]
    field_simp
    ring
